import Mathlib

/-!
Verification of `scripts/plot_hash_bucket_histograms.py` from the pbj
integration tests: a utility that loads per-algorithm bucket-occupancy
counts, computes occupancy histograms, compares them to a Poisson model,
and writes chart images.

The embedding below translates each Python function into a Lean
definition over lists and exact arithmetic (ℕ/ℤ for the integer arrays,
ℝ for the Poisson floating-point computation, ℚ for the normalization
quotient).  Negative-capable Python slice bounds are modelled by
`pySliceTo`; `np.bincount` by `bincount`.
-/

namespace PlotHist

/-- Python slice `l[:n]` where `n` may be negative:
`l[:n] = l.take n` for `n ≥ 0`, and for `n < 0` it keeps all but the
last `-n` elements (clamped at the empty list). -/
def pySliceTo {α : Type} (l : List α) (n : ℤ) : List α :=
  if 0 ≤ n then l.take n.toNat else l.take ((l.length : ℤ) + n).toNat

/-- Model of `np.bincount(xs)` for a list of non-negative integers: an
array of length `max xs + 1` (empty for empty input) whose entry at `k`
is the number of elements of `xs` equal to `k`. -/
def bincount (xs : List ℕ) : List ℕ :=
  match xs with
  | [] => []
  | x :: rest =>
      (List.range ((rest.foldl max x) + 1)).map fun k => (x :: rest).count k

/-- Translation of `compute_hist(counts, max_k)` from the script:
`hist = np.bincount(counts)`; if `max_k` is `None` it becomes
`len(hist) - 1`, otherwise `min(max_k, len(hist) - 1)`; the result is
`(np.arange(0, max_k + 1), hist[:max_k + 1])`.  Arithmetic on `max_k`
is over ℤ because the Python expression len(hist) - 1 is -1 on empty input. -/
def compute_hist (counts : List ℕ) (max_k : Option ℤ) : List ℤ × List ℕ :=
  let hist := bincount counts
  let mk : ℤ :=
    match max_k with
    | none => (hist.length : ℤ) - 1
    | some m => min m ((hist.length : ℤ) - 1)
  ((List.range (mk + 1).toNat).map Int.ofNat, pySliceTo hist (mk + 1))

/-- The maximum observed occupancy: the largest element of the counts
array (0 for the empty array).  On non-empty input, `bincount` has
length `max_observed + 1`. -/
def max_observed (counts : List ℕ) : ℕ :=
  match counts with
  | [] => 0
  | x :: rest => rest.foldl max x

/-- Translation of `sanitize_filename(s)`: every character that is not alphanumeric and
not one of `.`, `_`, `-` is replaced by `_`.  The Unicode Python
predicate `str.isalnum` is modelled by `Char.isAlphanum`; the algorithm
identifiers the script receives are ASCII. -/
def sanitize_filename (s : String) : String :=
  String.mk (s.data.map fun c =>
    if c.isAlphanum || c == '.' || c == '_' || c == '-' then c else '_')

/-- The per-algorithm output file name built in `plot_per_algorithm`:
the concatenation of hist_, the sanitized algorithm name and .png. -/
def per_algorithm_filename (alg : String) : String :=
  "hist_" ++ sanitize_filename alg ++ ".png"

/-! ## Metadata loading (`load_algorithm`) -/

/-- Byte order of a 32-bit integer array. -/
inductive Endianness where
  | little
  | big
deriving DecidableEq, Repr

/-- The byte order of `np.int32`, which is the native order of the platform.
The platforms this script runs on (x86-64 and AArch64 in little-endian
mode, as used by the surrounding JMH test harness) are little-endian. -/
def native_int32_order : Endianness := .little

/-- Model of Python `str.lower()`, character by character (the
endianness tags the script compares against are ASCII). -/
def py_lower (s : String) : String :=
  String.mk (s.data.map Char.toLower)

/-- Prefix test on character lists: `starts_with_chars p c` is true when
`p` is a prefix of `c`. -/
def starts_with_chars : List Char → List Char → Bool
  | [], _ => true
  | _ :: _, [] => false
  | p :: ps, c :: cs => (p == c) && starts_with_chars ps cs

/-- Model of Python `s.startswith(pre)`. -/
def py_startswith (s pre : String) : Bool :=
  starts_with_chars pre.data s.data

/-- The dtype selection in `load_algorithm`:
`str(meta.get("endianness", "little")).lower().startswith("little")`
selects `"<i4"`, the corresponding test for `"big"` selects `">i4"`,
and otherwise the initial `np.int32` (native order) is kept.  The
`endianness` field is `none` when absent from the metadata JSON. -/
def select_dtype (endianness : Option String) : Endianness :=
  if py_startswith (py_lower (endianness.getD "little")) "little" then .little
  else if py_startswith (py_lower (endianness.getD "little")) "big" then .big
  else native_int32_order

/-- Signed (twos-complement) value of a 32-bit pattern given as a natural
number (reduced modulo `2^32`). -/
def signed32 (n : ℕ) : ℤ :=
  if n % 2 ^ 32 < 2 ^ 31 then ((n % 2 ^ 32 : ℕ) : ℤ)
  else ((n % 2 ^ 32 : ℕ) : ℤ) - 2 ^ 32

/-- Signed 32-bit integer assembled from four bytes in the given order. -/
def int32OfBytes (e : Endianness) (b0 b1 b2 b3 : ℕ) : ℤ :=
  match e with
  | .little => signed32 (b0 + 256 * b1 + 256 ^ 2 * b2 + 256 ^ 3 * b3)
  | .big => signed32 (b3 + 256 * b2 + 256 ^ 2 * b1 + 256 ^ 3 * b0)

/-- Model of `np.fromfile(f, dtype=<4-byte int>)`: consume the byte
stream four bytes at a time (a trailing partial element is dropped,
as numpy does). -/
def bytesToInt32s (e : Endianness) : List ℕ → List ℤ
  | b0 :: b1 :: b2 :: b3 :: rest => int32OfBytes e b0 b1 b2 b3 :: bytesToInt32s e rest
  | _ => []

/-- The metadata record parsed from an `<ALG>.meta.json` file.  Fields
`numBuckets` and `numInputs` are read through Python `int(...)`;
`countsDtype` is unused by the script and omitted. -/
structure AlgorithmMeta where
  algorithm : String
  numBuckets : ℤ
  numInputs : ℤ
  countsFile : String
  endianness : Option String
deriving DecidableEq, Repr

/-- The message of the `ValueError` raised by `load_algorithm`:
a formatted string naming the observed array size, the declared
bucket count and the metadata path. -/
def validation_message (observed : ℕ) (declared : ℤ) (metaPath : String) : String :=
  "Counts size " ++ toString observed ++ " != numBuckets " ++ toString declared
    ++ " for " ++ metaPath

/-- Translation of `load_algorithm`: decode the bytes of the counts file as
32-bit integers in the declared endianness, validate the array length
against `numBuckets`, and return the metadata together with the counts.
File reading is modelled by passing the bytes of the counts file directly. -/
def load_algorithm (metaPath : String) (meta : AlgorithmMeta) (fileBytes : List ℕ) :
    Except String (AlgorithmMeta × List ℤ) :=
  let dtype := select_dtype meta.endianness
  let counts := bytesToInt32s dtype fileBytes
  if ((counts.length : ℤ) ≠ meta.numBuckets) then
    .error (validation_message counts.length meta.numBuckets metaPath)
  else
    .ok (meta, counts)

/-! ## Poisson model (`poisson_expected_counts`) -/

/-- The running probability `p` of the loop in `poisson_expected_counts`:
`p = math.exp(-lam)` initially, and the iteration for `k` performs
`p = p * lam / (k + 1)`. -/
noncomputable def poisson_p (lam : ℝ) : ℕ → ℝ
  | 0 => Real.exp (-lam)
  | k + 1 => poisson_p lam k * lam / (k + 1)

/-- Translation of `poisson_expected_counts(max_k, lam, num_buckets)`:
entry `k` of the returned array (of length `max_k + 1`) is the value
`p * num_buckets` written when the running `p` equals `poisson_p lam k`. -/
noncomputable def poisson_expected_counts (max_k : ℕ) (lam : ℝ) (num_buckets : ℤ) :
    List ℝ :=
  (List.range (max_k + 1)).map fun k => poisson_p lam k * (num_buckets : ℝ)

/-! ## Overlay normalization and alignment -/

/-- The normalization `y / y.sum()` in `plot_overlay` (performed when
`normalize=True`), over exact rationals. -/
def overlay_normalized (y : List ℕ) : List ℚ :=
  y.map fun (v : ℕ) => (v : ℚ) / (y.sum : ℚ)

/-- Python `min` over a sequence; the script only applies it to a
non-empty sequence (`meta_files` is non-empty there). -/
def list_min : List ℤ → ℤ
  | [] => 0
  | x :: xs => xs.foldl min x

/-- The overlay alignment block of `main`: compute
`min_max_k = min(int(k[-1]) for ...)` over the collected tables and
truncate every table whose last `k` exceeds it with
`k[: min_max_k + 1]`, `y[: min_max_k + 1]`; other tables are kept
as they are. -/
def align_overlay (overlay_data : List (AlgorithmMeta × List ℤ × List ℕ)) :
    List (AlgorithmMeta × List ℤ × List ℕ) :=
  let min_max_k := list_min (overlay_data.map fun t => t.2.1.getLastD 0)
  overlay_data.map fun t =>
    if min_max_k < t.2.1.getLastD 0 then
      (t.1, pySliceTo t.2.1 (min_max_k + 1), pySliceTo t.2.2 (min_max_k + 1))
    else t

/-! ## Driver (`main`) -/

/-- The inputs `main` observes from the world: whether the results
directory exists, its path, the discovered (sorted) metadata files with
their parsed contents and the bytes of their counts files, and the CLI flags. -/
structure RunInput where
  resultsDirExists : Bool
  resultsDir : String
  metaFiles : List (String × AlgorithmMeta × List ℕ)
  maxK : Option ℤ
  overlay : Bool

/-- The per-file loop of `main`: for each metadata file, load it
(an exception aborts the run), compute the histogram, render the
per-algorithm chart (pure in this model) and collect the overlay data.
Decoded counts enter `compute_hist` through `Int.toNat`; the script is
only defined on non-negative counts (`np.bincount` rejects negatives). -/
def run_loop (maxK : Option ℤ) :
    List (String × AlgorithmMeta × List ℕ) →
      Except String (List (AlgorithmMeta × List ℤ × List ℕ))
  | [] => .ok []
  | f :: rest =>
      match load_algorithm f.1 f.2.1 f.2.2 with
      | .error e => .error e
      | .ok (m, counts) =>
          let ky := compute_hist (counts.map Int.toNat) maxK
          match run_loop maxK rest with
          | .error e => .error e
          | .ok acc => .ok ((m, ky.1, ky.2) :: acc)

/-- Translation of `main`: missing directory and empty discovery abort
with the SystemExit messages of the script; a loading error propagates; on
success the overlay is (optionally) aligned and rendered and the final
message names the `plots` output directory.  An `error` result models a
non-zero process exit carrying the message; an `ok` result models a
zero exit after printing the message. -/
def main_model (inp : RunInput) : Except String String :=
  if inp.resultsDirExists = false then
    .error ("Directory not found: " ++ inp.resultsDir)
  else if inp.metaFiles = [] then
    .error ("No *.meta.json files found in " ++ inp.resultsDir)
  else
    match run_loop inp.maxK inp.metaFiles with
    | .error e => .error e
    | .ok overlay_data =>
        let _ := if inp.overlay then align_overlay overlay_data else []
        .ok ("Done. Plots written to: " ++ inp.resultsDir ++ "/plots")

/-! ## Helper lemmas -/

lemma le_foldl_max (l : List ℕ) (b : ℕ) : b ≤ l.foldl max b := by
  induction l generalizing b with
  | nil => simp
  | cons a t ih => exact le_trans (le_max_left b a) (ih (max b a))

lemma mem_le_foldl_max {x : ℕ} (l : List ℕ) (b : ℕ) (hx : x ∈ l) :
    x ≤ l.foldl max b := by
  induction l generalizing b with
  | nil => cases hx
  | cons a t ih =>
      rcases List.mem_cons.mp hx with rfl | h
      · exact le_trans (le_max_right b x) (le_foldl_max t (max b x))
      · exact ih (max b a) h

lemma sum_map_range_eq (f : ℕ → ℕ) (n : ℕ) :
    ((List.range n).map f).sum = ∑ i in Finset.range n, f i := by
  induction n with
  | zero => simp
  | succ m ih =>
      rw [List.range_succ, Finset.sum_range_succ, List.map_append, List.sum_append, ih]
      simp

lemma sum_count_range (xs : List ℕ) (n : ℕ) (h : ∀ x ∈ xs, x < n) :
    (∑ k in Finset.range n, xs.count k) = xs.length := by
  induction xs with
  | nil => simp
  | cons a rest ih =>
      have ha : a ∈ Finset.range n := Finset.mem_range.mpr (h a (List.mem_cons_self a rest))
      have hr : ∀ x ∈ rest, x < n := fun x hx => h x (List.mem_cons_of_mem a hx)
      have hsplit : ∀ k ∈ Finset.range n,
          (a :: rest).count k = rest.count k + if a = k then 1 else 0 := by
        intro k _
        rw [List.count_cons]
        simp [beq_iff_eq]
      rw [Finset.sum_congr rfl hsplit, Finset.sum_add_distrib, ih hr]
      simp [Finset.sum_ite_eq, ha, List.length_cons]

lemma mem_lt_bincount_length {x : ℕ} {counts : List ℕ} (hx : x ∈ counts) :
    x < (bincount counts).length := by
  cases counts with
  | nil => cases hx
  | cons a rest =>
      have : x ≤ rest.foldl max a := by
        rcases List.mem_cons.mp hx with rfl | h
        · exact le_foldl_max rest x
        · exact mem_le_foldl_max rest a h
      simpa [bincount] using Nat.lt_succ_of_le this

lemma bincount_sum (xs : List ℕ) : (bincount xs).sum = xs.length := by
  cases xs with
  | nil => rfl
  | cons x rest =>
      have hb : ∀ y ∈ x :: rest, y < (rest.foldl max x) + 1 := by
        intro y hy
        exact Nat.lt_succ_of_le (by
          rcases List.mem_cons.mp hy with rfl | h
          · exact le_foldl_max rest y
          · exact mem_le_foldl_max rest x h)
      simpa [bincount, sum_map_range_eq] using sum_count_range (x :: rest) _ hb

lemma bincount_get (xs : List ℕ) (k : ℕ) (hk : k < (bincount xs).length) :
    (bincount xs)[k]? = some (xs.count k) := by
  cases xs with
  | nil => simp [bincount] at hk
  | cons x rest =>
      have hk' : k < rest.foldl max x + 1 := by simpa [bincount] using hk
      simp [bincount, List.getElem?_map, List.getElem?_range, hk']

lemma compute_hist_none_eq (counts : List ℕ) :
    compute_hist counts none =
      ((List.range (bincount counts).length).map Int.ofNat, bincount counts) := by
  simp only [compute_hist]
  have h1 : (((bincount counts).length : ℤ) - 1 + 1) = ((bincount counts).length : ℤ) := by ring
  rw [h1]
  have h2 : ((bincount counts).length : ℤ).toNat = (bincount counts).length := Int.toNat_natCast _
  rw [h2]
  unfold pySliceTo
  rw [if_pos (by positivity), h2, List.take_length]

lemma bincount_length (counts : List ℕ) (hne : counts ≠ []) :
    (bincount counts).length = max_observed counts + 1 := by
  cases counts with
  | nil => exact absurd rfl hne
  | cons x rest => simp [bincount, max_observed]

lemma compute_hist_some_eq (counts : List ℕ) (m : ℕ) (hne : counts ≠ [])
    (hm : m < max_observed counts) :
    compute_hist counts (some (m : ℤ)) =
      ((List.range (m + 1)).map Int.ofNat, (bincount counts).take (m + 1)) := by
  simp only [compute_hist]
  have hlen := bincount_length counts hne
  have hmk : min (m : ℤ) (((bincount counts).length : ℤ) - 1) = (m : ℤ) := by
    rw [hlen]; push_cast; omega
  rw [hmk]
  have ht : ((m : ℤ) + 1).toNat = m + 1 := by omega
  rw [ht]
  unfold pySliceTo
  rw [if_pos (by positivity), ht]

lemma getLast?_range_map (n : ℕ) :
    ((List.range (n + 1)).map Int.ofNat).getLast? = some (n : ℤ) := by
  rw [List.range_succ, List.map_append]
  simp

lemma string_mk_data (l : List Char) : (String.mk l).data = l := rfl

lemma getD_map_range (f : ℕ → ℝ) (n k : ℕ) (hk : k < n) :
    ((List.range n).map f).getD k 0 = f k := by
  rw [List.getD_eq_getElem?_getD, List.getElem?_map, List.getElem?_range hk]
  rfl

lemma poisson_p_of_rate_zero (k : ℕ) (hk : 0 < k) : poisson_p 0 k = 0 := by
  cases k with
  | zero => exact absurd hk (by simp)
  | succ j => simp [poisson_p]

/-! ## Claim theorems -/

/-- C1: for every counts-array of non-negative integers, the full
(untruncated, `max_k = None`) histogram computed by `compute_hist` has
frequencies summing to exactly the length of the array, where frequency `k`
is the number of array entries equal to `k`. -/
theorem compute_hist_full_sum (counts : List ℕ) :
    ((compute_hist counts none).2).sum = counts.length ∧
    ∀ k : ℕ, k < ((compute_hist counts none).2).length →
      ((compute_hist counts none).2)[k]? = some (counts.count k) := by
  rw [compute_hist_none_eq]
  exact ⟨bincount_sum counts, fun k hk => bincount_get counts k hk⟩

/-- Witness for C1 at the concrete counts-array `[1, 1, 1, 3]`. -/
theorem compute_hist_full_sum_witness :
    ((compute_hist [1, 1, 1, 3] none).2).sum = ([1, 1, 1, 3] : List ℕ).length ∧
    ((compute_hist [1, 1, 1, 3] none).2)[3]? = some (([1, 1, 1, 3] : List ℕ).count 3) := by
  have h := compute_hist_full_sum [1, 1, 1, 3]
  exact ⟨h.1, h.2 3 (by decide)⟩

/-- C3: for a non-empty counts-array and a supplied `max_k` smaller than
the maximum observed occupancy, `compute_hist` returns a k-domain of
exactly `max_k + 1` entries (`k = 0 .. max_k`) with the parallel
frequency sequence truncated to those `k` — each returned frequency is
the exact count of buckets with that occupancy, so values beyond
`max_k` are dropped, not folded into the last bucket — and in general
the returned domain ends at `min(max_k, max observed)`. -/
theorem compute_hist_truncation (counts : List ℕ) (m : ℕ) (hne : counts ≠ [])
    (hm : m < max_observed counts) :
    (compute_hist counts (some (m : ℤ))).1 = (List.range (m + 1)).map Int.ofNat ∧
    ((compute_hist counts (some (m : ℤ))).1).length = m + 1 ∧
    ((compute_hist counts (some (m : ℤ))).2).length = m + 1 ∧
    (∀ j : ℕ, j ≤ m →
      ((compute_hist counts (some (m : ℤ))).2)[j]? = some (counts.count j)) ∧
    ((compute_hist counts (some (m : ℤ))).1).getLast? =
      some (min (m : ℤ) (max_observed counts)) := by
  rw [compute_hist_some_eq counts m hne hm]
  have hlen := bincount_length counts hne
  refine ⟨rfl, by simp, ?_, ?_, ?_⟩
  · rw [List.length_take, hlen]
    omega
  · intro j hj
    rw [List.getElem?_take]
    rw [if_pos (by omega)]
    exact bincount_get counts j (by omega)
  · rw [getLast?_range_map]
    congr 1
    omega

/-- Witness for C3 at the counts-array `[1, 1, 1, 3]` (maximum observed
occupancy 3) with `max_k = 1`. -/
theorem compute_hist_truncation_witness :
    ((compute_hist [1, 1, 1, 3] (some ((1 : ℕ) : ℤ))).2).length = 1 + 1 ∧
    ((compute_hist [1, 1, 1, 3] (some ((1 : ℕ) : ℤ))).2)[1]? =
      some (([1, 1, 1, 3] : List ℕ).count 1) := by
  have h := compute_hist_truncation [1, 1, 1, 3] 1 (by decide) (by decide)
  exact ⟨h.2.2.1, h.2.2.2.1 1 le_rfl⟩

/-- C8: the per-algorithm output image is named
`hist_<sanitized>.png`, where sanitization replaces every character
that is neither alphanumeric nor one of `.`, `_`, `-` with `_`, keeps
all other characters, and preserves length and order. -/
theorem per_algorithm_filename_spec (alg : String) :
    per_algorithm_filename alg = "hist_" ++ sanitize_filename alg ++ ".png" ∧
    (sanitize_filename alg).data.length = alg.data.length ∧
    ∀ (i : ℕ) (c : Char), alg.data[i]? = some c →
      (sanitize_filename alg).data[i]? =
        some (if c.isAlphanum || c == '.' || c == '_' || c == '-' then c else '_') := by
  refine ⟨rfl, by simp [sanitize_filename], fun i c hc => ?_⟩
  simp [sanitize_filename, string_mk_data, List.getElem?_map, hc]

/-- Witness for C8 at the algorithm identifier `"XX hash/32"`, whose
character at index 2 is a space and is replaced by an underscore. -/
theorem per_algorithm_filename_spec_witness :
    per_algorithm_filename "XX hash/32" =
      "hist_" ++ sanitize_filename "XX hash/32" ++ ".png" ∧
    (sanitize_filename "XX hash/32").data[2]? =
      some (if (' ').isAlphanum || (' ') == '.' || (' ') == '_' || (' ') == '-'
            then ' ' else '_') := by
  have h := per_algorithm_filename_spec "XX hash/32"
  exact ⟨h.1, h.2.2 2 ' ' (by decide)⟩

/-- C10: `sanitize_filename` is idempotent — every character of its
output is alphanumeric or one of `.`, `_`, `-`, so a second application
changes nothing. -/
theorem sanitize_filename_idem (s : String) :
    sanitize_filename (sanitize_filename s) = sanitize_filename s := by
  have key : (s.data.map
        (fun c => if c.isAlphanum || c == '.' || c == '_' || c == '-' then c else '_')).map
        (fun c => if c.isAlphanum || c == '.' || c == '_' || c == '-' then c else '_')
      = s.data.map
        (fun c => if c.isAlphanum || c == '.' || c == '_' || c == '-' then c else '_') := by
    rw [List.map_map]
    refine List.map_congr_left fun c _ => ?_
    by_cases h : (c.isAlphanum || c == '.' || c == '_' || c == '-') = true
    · simp [Function.comp, h]
    · simp [Function.comp, h]
  show String.mk ((String.mk (s.data.map
      (fun c => if c.isAlphanum || c == '.' || c == '_' || c == '-' then c else '_'))).data.map
      (fun c => if c.isAlphanum || c == '.' || c == '_' || c == '-' then c else '_')) =
    String.mk (s.data.map
      (fun c => if c.isAlphanum || c == '.' || c == '_' || c == '-' then c else '_'))
  rw [string_mk_data, key]

/-- C2: for every `max_k`, rate `λ ≥ 0` and bucket count `N ≥ 0`,
`poisson_expected_counts` returns an array of length `max_k + 1` with
`expected(0) = N·e^(−λ)` and `expected(k+1) = expected(k)·λ/(k+1)` for
`0 ≤ k < max_k`; for `λ = 0` it returns `expected(0) = N` and
`expected(k) = 0` for every `k > 0`. -/
theorem poisson_expected_counts_spec (max_k : ℕ) (lam : ℝ) (N : ℤ)
    (hlam : 0 ≤ lam) (hN : 0 ≤ N) :
    (poisson_expected_counts max_k lam N).length = max_k + 1 ∧
    (poisson_expected_counts max_k lam N).getD 0 0 = (N : ℝ) * Real.exp (-lam) ∧
    (∀ k : ℕ, k < max_k →
      (poisson_expected_counts max_k lam N).getD (k + 1) 0 =
        (poisson_expected_counts max_k lam N).getD k 0 * lam / (k + 1)) ∧
    (lam = 0 →
      (poisson_expected_counts max_k lam N).getD 0 0 = (N : ℝ) ∧
      ∀ k : ℕ, 0 < k → k ≤ max_k →
        (poisson_expected_counts max_k lam N).getD k 0 = 0) := by
  have hget : ∀ k : ℕ, k ≤ max_k →
      (poisson_expected_counts max_k lam N).getD k 0 = poisson_p lam k * (N : ℝ) := by
    intro k hk
    exact getD_map_range _ _ _ (by omega)
  refine ⟨by simp [poisson_expected_counts], ?_, ?_, ?_⟩
  · rw [hget 0 (Nat.zero_le _)]
    simp [poisson_p]
    ring
  · intro k hk
    rw [hget (k + 1) (by omega), hget k (by omega)]
    simp only [poisson_p]
    ring
  · intro hlam0
    subst hlam0
    constructor
    · rw [hget 0 (Nat.zero_le _)]
      simp [poisson_p]
    · intro k hk0 hkm
      rw [hget k hkm, poisson_p_of_rate_zero k hk0]
      ring

/-- Witness for C2 at `max_k = 2`, `λ = 0`, `N = 7`. -/
theorem poisson_expected_counts_spec_witness :
    (poisson_expected_counts 2 0 7).length = 2 + 1 ∧
    (poisson_expected_counts 2 0 7).getD 0 0 = ((7 : ℤ) : ℝ) ∧
    (poisson_expected_counts 2 0 7).getD 2 0 = 0 := by
  have h := poisson_expected_counts_spec 2 0 7 le_rfl (by decide)
  exact ⟨h.1, (h.2.2.2 rfl).1, (h.2.2.2 rfl).2 2 (by decide) le_rfl⟩

/-- C4: if the number of 32-bit integers decoded from the counts file
differs from the declared `numBuckets`, `load_algorithm` fails with a
validation error whose message names the observed length, the declared
bucket count and the source path, and returns no pair; if the lengths
agree, it returns the metadata with the decoded counts. -/
theorem load_algorithm_validation (metaPath : String) (meta : AlgorithmMeta)
    (fileBytes : List ℕ) :
    (((bytesToInt32s (select_dtype meta.endianness) fileBytes).length : ℤ) ≠ meta.numBuckets →
      load_algorithm metaPath meta fileBytes =
        .error ("Counts size "
          ++ toString (bytesToInt32s (select_dtype meta.endianness) fileBytes).length
          ++ " != numBuckets " ++ toString meta.numBuckets ++ " for " ++ metaPath) ∧
      ∀ out, load_algorithm metaPath meta fileBytes ≠ Except.ok out) ∧
    (((bytesToInt32s (select_dtype meta.endianness) fileBytes).length : ℤ) = meta.numBuckets →
      load_algorithm metaPath meta fileBytes =
        .ok (meta, bytesToInt32s (select_dtype meta.endianness) fileBytes)) := by
  constructor
  · intro hne
    constructor
    · simp only [load_algorithm, validation_message]
      rw [if_pos hne]
    · intro out
      simp only [load_algorithm]
      rw [if_pos hne]
      simp
  · intro he
    simp only [load_algorithm]
    rw [if_neg (by simp [he])]

/-- Witness for C4: a metadata record declaring `numBuckets = 5` paired
with a 16-byte counts file (4 little-endian 32-bit integers). -/
theorem load_algorithm_validation_witness :
    load_algorithm "algo.meta.json" ⟨"A", 5, 10, "c.bin", some "little"⟩
        [1, 0, 0, 0, 2, 0, 0, 0, 3, 0, 0, 0, 4, 0, 0, 0] =
      .error ("Counts size "
        ++ toString (bytesToInt32s
              (select_dtype (some "little"))
              [1, 0, 0, 0, 2, 0, 0, 0, 3, 0, 0, 0, 4, 0, 0, 0]).length
        ++ " != numBuckets " ++ toString (5 : ℤ) ++ " for " ++ "algo.meta.json") := by
  exact (load_algorithm_validation "algo.meta.json" ⟨"A", 5, 10, "c.bin", some "little"⟩
    [1, 0, 0, 0, 2, 0, 0, 0, 3, 0, 0, 0, 4, 0, 0, 0]).1 (by decide) |>.1

/-- C5: the counts bytes are interpreted using the declared endianness
field, matched case-insensitively by prefix — a lowercase form starting
with `"little"` gives little-endian, one starting with `"big"` gives
big-endian, anything else (including a missing field) falls back to
little-endian — and `load_algorithm` decodes the bytes of the file with the
selected byte order. -/
theorem endianness_selection (e : Option String) :
    select_dtype e =
      (if py_startswith (py_lower (e.getD "little")) "little" then Endianness.little
       else if py_startswith (py_lower (e.getD "little")) "big" then Endianness.big
       else Endianness.little) ∧
    select_dtype none = Endianness.little ∧
    ∀ (metaPath : String) (meta : AlgorithmMeta) (fileBytes : List ℕ)
      (out : AlgorithmMeta × List ℤ),
      load_algorithm metaPath meta fileBytes = .ok out →
      out.2 = bytesToInt32s (select_dtype meta.endianness) fileBytes := by
  refine ⟨rfl, by decide, ?_⟩
  intro metaPath meta fileBytes out hout
  simp only [load_algorithm] at hout
  by_cases hc : ((bytesToInt32s (select_dtype meta.endianness) fileBytes).length : ℤ)
      ≠ meta.numBuckets
  · rw [if_pos hc] at hout
    cases hout
  · rw [if_neg hc] at hout
    cases hout
    rfl

/-- Witness for C5: the field value `"BigEndian"` selects big-endian
and a successful load returns the big-endian decoding of the bytes. -/
theorem endianness_selection_witness :
    select_dtype (some "BigEndian") = Endianness.big ∧
    ((⟨"A", 1, 1, "c", some "BigEndian"⟩ : AlgorithmMeta), [(1 : ℤ)]).2 =
      bytesToInt32s (select_dtype (some "BigEndian")) [0, 0, 0, 1] := by
  have h := endianness_selection (some "BigEndian")
  refine ⟨by rw [h.1]; decide, ?_⟩
  refine h.2.2 "p" ⟨"A", 1, 1, "c", some "BigEndian"⟩ [0, 0, 0, 1]
    (⟨"A", 1, 1, "c", some "BigEndian"⟩, [1]) ?_
  simp only [load_algorithm]
  rw [if_neg (by decide)]
  have hb : bytesToInt32s (select_dtype (some "BigEndian")) [0, 0, 0, 1] = [1] := by decide
  rw [hb]

lemma pySliceTo_of_nonneg {α : Type} (l : List α) {n : ℤ} (h : 0 ≤ n) :
    pySliceTo l n = l.take n.toNat := by
  unfold pySliceTo
  rw [if_pos h]

lemma foldl_min_le_init (l : List ℤ) (b : ℤ) : l.foldl min b ≤ b := by
  induction l generalizing b with
  | nil => simp
  | cons a t ih => exact le_trans (ih (min b a)) (min_le_left b a)

lemma foldl_min_le_mem {x : ℤ} (l : List ℤ) (b : ℤ) (hx : x ∈ l) :
    l.foldl min b ≤ x := by
  induction l generalizing b with
  | nil => cases hx
  | cons a t ih =>
      rcases List.mem_cons.mp hx with rfl | h
      · exact le_trans (foldl_min_le_init t (min b x)) (min_le_right b x)
      · exact ih (min b a) h

lemma list_min_le {x : ℤ} (l : List ℤ) (hx : x ∈ l) : list_min l ≤ x := by
  cases l with
  | nil => cases hx
  | cons a t =>
      rcases List.mem_cons.mp hx with rfl | h
      · exact foldl_min_le_init t x
      · exact foldl_min_le_mem t a h

lemma foldl_min_nonneg (l : List ℤ) (b : ℤ) (hb : 0 ≤ b)
    (h : ∀ x ∈ l, 0 ≤ x) : 0 ≤ l.foldl min b := by
  induction l generalizing b with
  | nil => simpa
  | cons a t ih =>
      exact ih (min b a) (le_min hb (h a (List.mem_cons_self a t)))
        fun x hx => h x (List.mem_cons_of_mem a hx)

lemma list_min_nonneg (l : List ℤ) (h : ∀ x ∈ l, 0 ≤ x) : 0 ≤ list_min l := by
  cases l with
  | nil => simp [list_min]
  | cons a t =>
      exact foldl_min_nonneg t a (h a (List.mem_cons_self a t))
        fun x hx => h x (List.mem_cons_of_mem a hx)

lemma getLastD_range_map (n : ℕ) :
    ((List.range (n + 1)).map Int.ofNat).getLastD 0 = (n : ℤ) := by
  rw [List.getLastD_eq_getLast?, getLast?_range_map]
  rfl

lemma take_range_map (M m : ℕ) (h : M ≤ m) :
    ((List.range (m + 1)).map Int.ofNat).take (M + 1) =
      (List.range (M + 1)).map Int.ofNat := by
  rw [← List.map_take, List.take_range]
  congr 2
  omega

/-- C6: when the overlay is requested, every collected (k, frequency)
table whose maximum `k` exceeds the minimum of the individual maximum
`k` values is truncated down to that minimum (keeping `k = 0 ..
min_max_k`), tables already at that maximum are unchanged, no table is
padded, and after alignment the k-domain of every table ends at exactly the
minimum common maximum `k`. -/
theorem align_overlay_spec
    (data : List (AlgorithmMeta × List ℤ × List ℕ))
    (hw : ∀ t ∈ data, ∃ m : ℕ,
      t.2.1 = (List.range (m + 1)).map Int.ofNat ∧ t.2.2.length = m + 1) :
    (align_overlay data).length = data.length ∧
    ∀ (i : ℕ) (t : AlgorithmMeta × List ℤ × List ℕ), data[i]? = some t →
      (t.2.1.getLastD 0 ≤ list_min (data.map fun u => u.2.1.getLastD 0) →
        (align_overlay data)[i]? = some t) ∧
      (list_min (data.map fun u => u.2.1.getLastD 0) < t.2.1.getLastD 0 →
        (align_overlay data)[i]? = some (t.1,
          t.2.1.take ((list_min (data.map fun u => u.2.1.getLastD 0) + 1).toNat),
          t.2.2.take ((list_min (data.map fun u => u.2.1.getLastD 0) + 1).toNat))) ∧
      (∀ t', (align_overlay data)[i]? = some t' →
        t'.2.1.getLastD 0 = list_min (data.map fun u => u.2.1.getLastD 0) ∧
        t'.2.1.length ≤ t.2.1.length ∧ t'.2.2.length ≤ t.2.2.length) := by
  constructor
  · simp [align_overlay]
  intro i t ht
  have htmem : t ∈ data := List.getElem?_mem ht
  obtain ⟨m, hk, hylen⟩ := hw t htmem
  have hlast : t.2.1.getLastD 0 = (m : ℤ) := by rw [hk, getLastD_range_map]
  have hMle : list_min (data.map fun u => u.2.1.getLastD 0) ≤ t.2.1.getLastD 0 :=
    list_min_le _ (List.mem_map_of_mem _ htmem)
  have hMnonneg : 0 ≤ list_min (data.map fun u => u.2.1.getLastD 0) := by
    apply list_min_nonneg
    intro x hx
    obtain ⟨u, hu, rfl⟩ := List.mem_map.mp hx
    obtain ⟨mu, hku, _⟩ := hw u hu
    rw [hku, getLastD_range_map]
    positivity
  have hAi : (align_overlay data)[i]? =
      some (if list_min (data.map fun u => u.2.1.getLastD 0) < t.2.1.getLastD 0 then
        (t.1, pySliceTo t.2.1 (list_min (data.map fun u => u.2.1.getLastD 0) + 1),
          pySliceTo t.2.2 (list_min (data.map fun u => u.2.1.getLastD 0) + 1))
      else t) := by
    simp only [align_overlay]
    rw [List.getElem?_map, ht]
    rfl
  have hslice1 : pySliceTo t.2.1 (list_min (data.map fun u => u.2.1.getLastD 0) + 1) =
      t.2.1.take ((list_min (data.map fun u => u.2.1.getLastD 0) + 1).toNat) :=
    pySliceTo_of_nonneg _ (by omega)
  have hslice2 : pySliceTo t.2.2 (list_min (data.map fun u => u.2.1.getLastD 0) + 1) =
      t.2.2.take ((list_min (data.map fun u => u.2.1.getLastD 0) + 1).toNat) :=
    pySliceTo_of_nonneg _ (by omega)
  refine ⟨?_, ?_, ?_⟩
  · intro hle
    rw [hAi, if_neg (not_lt.mpr hle)]
  · intro hlt
    rw [hAi, if_pos hlt, hslice1, hslice2]
  · intro t' ht'
    by_cases hcase : list_min (data.map fun u => u.2.1.getLastD 0) < t.2.1.getLastD 0
    · rw [hAi, if_pos hcase] at ht'
      injection ht' with ht''
      subst ht''
      have htn : ((list_min (data.map fun u => u.2.1.getLastD 0) + 1)).toNat =
          (list_min (data.map fun u => u.2.1.getLastD 0)).toNat + 1 := by omega
      have hmn : (list_min (data.map fun u => u.2.1.getLastD 0)).toNat ≤ m := by
        rw [hlast] at hcase
        omega
      refine ⟨?_, ?_, ?_⟩
      · rw [hslice1, htn, hk, take_range_map _ _ hmn, getLastD_range_map]
        omega
      · rw [hslice1]
        rw [List.length_take]
        omega
      · rw [hslice2]
        rw [List.length_take]
        omega
    · rw [hAi, if_neg hcase] at ht'
      injection ht' with ht''
      subst ht''
      exact ⟨le_antisymm (not_lt.mp hcase) hMle, le_rfl, le_rfl⟩

/-- Witness for C6: two tables with maximum `k` values 2 and 1; the
first is truncated to `k = 0 .. 1`, the second stays unchanged. -/
theorem align_overlay_spec_witness :
    (align_overlay
        [(⟨"A", 3, 6, "a", none⟩, [0, 1, 2], [5, 3, 2]),
         (⟨"B", 2, 4, "b", none⟩, [0, 1], [4, 6])])[0]? =
      some ((⟨"A", 3, 6, "a", none⟩ : AlgorithmMeta), [(0 : ℤ), 1], [5, 3]) ∧
    (align_overlay
        [(⟨"A", 3, 6, "a", none⟩, [0, 1, 2], [5, 3, 2]),
         (⟨"B", 2, 4, "b", none⟩, [0, 1], [4, 6])])[1]? =
      some ((⟨"B", 2, 4, "b", none⟩ : AlgorithmMeta), [(0 : ℤ), 1], [4, 6]) := by
  have hw : ∀ t ∈ [((⟨"A", 3, 6, "a", none⟩ : AlgorithmMeta), ([0, 1, 2] : List ℤ),
        ([5, 3, 2] : List ℕ)),
      (⟨"B", 2, 4, "b", none⟩, [0, 1], [4, 6])], ∃ m : ℕ,
      t.2.1 = (List.range (m + 1)).map Int.ofNat ∧ t.2.2.length = m + 1 := by
    intro t ht
    rcases List.mem_cons.mp ht with rfl | ht2
    · exact ⟨2, by decide, by decide⟩
    rcases List.mem_cons.mp ht2 with rfl | ht3
    · exact ⟨1, by decide, by decide⟩
    · cases ht3
  have h := align_overlay_spec _ hw
  constructor
  · have h0 := (h.2 0 (⟨"A", 3, 6, "a", none⟩, [0, 1, 2], [5, 3, 2]) (by decide)).2.1 (by decide)
    rw [h0]
    decide
  · exact (h.2 1 (⟨"B", 2, 4, "b", none⟩, [0, 1], [4, 6]) (by decide)).1 (by decide)

/-- Counterexample for C7 as stated: the overlay also plots truncated
tables, and there the normalized quotient is not the fraction of total
buckets.  For counts `[1, 1, 1, 3]` truncated to `max_k = 1` the table
is `[0, 3]`, so the value plotted at `k = 1` is `3/3 = 1`, while the
fraction of the 4 buckets holding exactly 1 item is `3/4`. -/
theorem overlay_normalization_counterexample :
    (overlay_normalized ((compute_hist [1, 1, 1, 3] (some 1)).2))[1]? =
      some ((3 : ℚ) / 3) ∧
    ¬((overlay_normalized ((compute_hist [1, 1, 1, 3] (some 1)).2))[1]? =
      some ((([1, 1, 1, 3] : List ℕ).count 1 : ℚ) /
        (([1, 1, 1, 3] : List ℕ).length : ℚ))) := by
  have h1 : (compute_hist [1, 1, 1, 3] (some 1)).2 = [0, 3] := by decide
  have h2 : ([1, 1, 1, 3] : List ℕ).count 1 = 3 := by decide
  have h3 : ([1, 1, 1, 3] : List ℕ).length = 4 := by decide
  rw [h1, h2, h3]
  constructor
  · simp [overlay_normalized]
  · simp [overlay_normalized]
    norm_num

/-- C7 (amended): in the overlay chart, the normalized value plotted at
each `k` of any table equals the frequency of the table at `k` divided
by the frequency sum of the table; for the full (untruncated) histogram
of an algorithm this quotient is the fraction of the buckets of that
algorithm holding exactly `k` items. -/
theorem overlay_normalization_amended :
    (∀ (y : List ℕ) (j v : ℕ), y[j]? = some v →
      (overlay_normalized y)[j]? = some ((v : ℚ) / (y.sum : ℚ))) ∧
    (∀ (counts : List ℕ) (j : ℕ), j < ((compute_hist counts none).2).length →
      (overlay_normalized ((compute_hist counts none).2))[j]? =
        some ((counts.count j : ℚ) / (counts.length : ℚ))) := by
  constructor
  · intro y j v hv
    unfold overlay_normalized
    rw [List.getElem?_map, hv]
    rfl
  · intro counts j hj
    have hy : ((compute_hist counts none).2) = bincount counts := by
      rw [compute_hist_none_eq]
    have hsum : ((compute_hist counts none).2).sum = counts.length := by
      rw [hy, bincount_sum]
    have hget : ((compute_hist counts none).2)[j]? = some (counts.count j) := by
      rw [hy]
      exact bincount_get counts j (by rwa [hy] at hj)
    unfold overlay_normalized
    rw [List.getElem?_map, hget, hsum]
    rfl

/-- Witness for the amended C7: the truncated table `[0, 3]` is
normalized entrywise by its own sum, and the full histogram of
`[1, 1, 1, 3]` at `k = 1` gives the fraction of buckets `3/4`. -/
theorem overlay_normalization_amended_witness :
    (overlay_normalized [0, 3])[1]? = some ((3 : ℚ) / (([0, 3] : List ℕ).sum : ℚ)) ∧
    (overlay_normalized ((compute_hist [1, 1, 1, 3] none).2))[1]? =
      some ((([1, 1, 1, 3] : List ℕ).count 1 : ℚ) /
        (([1, 1, 1, 3] : List ℕ).length : ℚ)) := by
  have h := overlay_normalization_amended
  exact ⟨h.1 [0, 3] 1 3 (by decide), h.2 [1, 1, 1, 3] 1 (by decide)⟩

lemma run_loop_error_iff (mk : Option ℤ)
    (files : List (String × AlgorithmMeta × List ℕ)) :
    (∃ e, run_loop mk files = .error e) ↔
      ∃ f ∈ files,
        ((bytesToInt32s (select_dtype f.2.1.endianness) f.2.2).length : ℤ) ≠
          f.2.1.numBuckets := by
  induction files with
  | nil => simp [run_loop]
  | cons f rest ih =>
      by_cases hf : ((bytesToInt32s (select_dtype f.2.1.endianness) f.2.2).length : ℤ) ≠
          f.2.1.numBuckets
      · have hload : load_algorithm f.1 f.2.1 f.2.2 =
            .error (validation_message
              (bytesToInt32s (select_dtype f.2.1.endianness) f.2.2).length
              f.2.1.numBuckets f.1) := by
          simp only [load_algorithm, validation_message]
          rw [if_pos hf]
        apply iff_of_true
        · exact ⟨validation_message
              (bytesToInt32s (select_dtype f.2.1.endianness) f.2.2).length
              f.2.1.numBuckets f.1,
            by simp only [run_loop, hload]⟩
        · exact ⟨f, List.mem_cons_self f rest, hf⟩
      · have hload : load_algorithm f.1 f.2.1 f.2.2 =
            .ok (f.2.1, bytesToInt32s (select_dtype f.2.1.endianness) f.2.2) := by
          simp only [load_algorithm]
          rw [if_neg hf]
        cases hrest : run_loop mk rest with
        | error e2 =>
            obtain ⟨g, hg, hgc⟩ := ih.mp ⟨e2, hrest⟩
            apply iff_of_true
            · exact ⟨e2, by simp only [run_loop, hload, hrest]⟩
            · exact ⟨g, List.mem_cons_of_mem f hg, hgc⟩
        | ok acc =>
            apply iff_of_false
            · rintro ⟨e, he⟩
              simp only [run_loop, hload, hrest] at he
              exact Except.noConfusion he
            · rintro ⟨g, hg, hgc⟩
              rcases List.mem_cons.mp hg with rfl | hh
              · exact hf hgc
              · obtain ⟨e3, he3⟩ := ih.mpr ⟨g, hh, hgc⟩
                rw [hrest] at he3
                exact Except.noConfusion he3

/-- C9: the driver exits non-zero with a message exactly when the
results directory is missing, no metadata files were found, or some
counts-array length mismatches its declared bucket count; otherwise
it exits zero with a message naming the `plots` output directory.  The
hypothesis restricts to the supported inputs of the script (non-negative
counts, which `np.bincount` requires). -/
theorem main_exit_behavior (inp : RunInput)
    (hcounts : ∀ f ∈ inp.metaFiles,
      ∀ c ∈ bytesToInt32s (select_dtype f.2.1.endianness) f.2.2, 0 ≤ c) :
    ((∃ e, main_model inp = .error e) ↔
      (inp.resultsDirExists = false ∨ inp.metaFiles = [] ∨
        ∃ f ∈ inp.metaFiles,
          ((bytesToInt32s (select_dtype f.2.1.endianness) f.2.2).length : ℤ) ≠
            f.2.1.numBuckets)) ∧
    (inp.resultsDirExists = true → inp.metaFiles ≠ [] →
      (∀ f ∈ inp.metaFiles,
        ((bytesToInt32s (select_dtype f.2.1.endianness) f.2.2).length : ℤ) =
          f.2.1.numBuckets) →
      main_model inp = .ok ("Done. Plots written to: " ++ inp.resultsDir ++ "/plots")) := by
  by_cases hdir : inp.resultsDirExists = false
  · constructor
    · apply iff_of_true
      · exact ⟨"Directory not found: " ++ inp.resultsDir,
          by simp only [main_model]; rw [if_pos hdir]⟩
      · exact Or.inl hdir
    · intro h1
      rw [h1] at hdir
      exact absurd hdir (by simp)
  · have hdir' : ¬(inp.resultsDirExists = false) := hdir
    by_cases hmf : inp.metaFiles = []
    · constructor
      · apply iff_of_true
        · exact ⟨"No *.meta.json files found in " ++ inp.resultsDir,
            by simp only [main_model]; rw [if_neg hdir', if_pos hmf]⟩
        · exact Or.inr (Or.inl hmf)
      · intro _ h2
        exact absurd hmf h2
    · cases hrl : run_loop inp.maxK inp.metaFiles with
      | error e =>
          obtain ⟨g, hg, hgc⟩ := (run_loop_error_iff inp.maxK inp.metaFiles).mp ⟨e, hrl⟩
          constructor
          · apply iff_of_true
            · exact ⟨e, by simp only [main_model]; rw [if_neg hdir', if_neg hmf, hrl]⟩
            · exact Or.inr (Or.inr ⟨g, hg, hgc⟩)
          · intro _ _ hall
            exact absurd (hall g hg) hgc
      | ok res =>
          constructor
          · apply iff_of_false
            · rintro ⟨e, he⟩
              simp only [main_model] at he
              rw [if_neg hdir', if_neg hmf, hrl] at he
              exact Except.noConfusion he
            · rintro (h1 | h2 | h3)
              · exact hdir' h1
              · exact hmf h2
              · obtain ⟨e3, he3⟩ := (run_loop_error_iff inp.maxK inp.metaFiles).mpr h3
                rw [hrl] at he3
                exact Except.noConfusion he3
          · intro _ _ _
            simp only [main_model]
            rw [if_neg hdir', if_neg hmf, hrl]

/-- Witness for C9: a directory with a single valid metadata/counts
pair (one little-endian 32-bit integer, `numBuckets = 1`) succeeds with
the confirmation message naming the plots directory. -/
theorem main_exit_behavior_witness :
    main_model ⟨true, "d", [("p", ⟨"A", 1, 1, "c", some "little"⟩, [7, 0, 0, 0])],
        none, false⟩ =
      .ok ("Done. Plots written to: " ++ "d" ++ "/plots") := by
  exact (main_exit_behavior
    ⟨true, "d", [("p", ⟨"A", 1, 1, "c", some "little"⟩, [7, 0, 0, 0])], none, false⟩
    (by decide)).2 rfl (by decide) (by decide)

end PlotHist
